import Mathlib

/-!
Shallow embedding of the weighted semaphore in src/semaphore.go.

The semaphore state is the four fields of the Go struct Weighted; the mutex
is not modelled because every mutation in the source happens in a single
critical section, so each locked section becomes one atomic step here.
A waiter carries its requested weight and an identifier standing for the
ready channel created for it.  A Go panic is modelled by the panicked flag
of OpResult, whose state field records the fields as they stand at the
moment of the panic.  The granted field lists, in order, the waiters whose
ready channel the operation closed.
-/

namespace Semaphore

/-- A parked acquire request: requested weight and an identifier standing
for its ready channel. -/
structure Waiter where
  n : Int
  id : Nat
deriving DecidableEq, Repr

/-- The fields of the Go struct Weighted (semaphore.go lines 28 to 34). -/
structure Weighted where
  size : Int
  cur : Int
  waiters : List Waiter
  impossibleWaiters : List Waiter
deriving DecidableEq, Repr

/-- NewWeighted (semaphore.go lines 21 to 24): stores the requested size and
performs no validation. -/
def newWeighted (n : Int) : Weighted :=
  { size := n, cur := 0, waiters := [], impossibleWaiters := [] }

/-- TryAcquire (semaphore.go lines 83 to 91). -/
def tryAcquire (s : Weighted) (n : Int) : Bool × Weighted :=
  if s.size - s.cur ≥ n ∧ s.waiters = [] then
    (true, { s with cur := s.cur + n })
  else
    (false, s)

/-- The locked first section of Acquire (semaphore.go lines 42 to 59): the
fast path, and otherwise enqueueing of the new waiter at the back of the
list chosen by the weight.  The Bool is true exactly when the fast path
succeeded. -/
def acquireStart (s : Weighted) (w : Waiter) : Bool × Weighted :=
  if s.size - s.cur ≥ w.n ∧ s.waiters = [] then
    (true, { s with cur := s.cur + w.n })
  else if w.n > s.size then
    (false, { s with impossibleWaiters := s.impossibleWaiters ++ [w] })
  else
    (false, { s with waiters := s.waiters ++ [w] })

/-- Which of the two lists a waiter was pushed onto at enqueue time; the Go
code captures this choice in the local variable waiterList. -/
inductive QueueKind where
  | ordered
  | impossible
deriving DecidableEq, Repr

/-- The cancellation branch of Acquire (semaphore.go lines 62 to 74) when the
ready channel is not yet closed: waiterList.Remove(elem) on the list captured
at enqueue time.  Go's container/list Remove is a no-op when the element is no
longer in that list, which is what erase gives when the waiter value is
absent. -/
def cancelWaiter (s : Weighted) (w : Waiter) (k : QueueKind) : Weighted :=
  match k with
  | .ordered => { s with waiters := s.waiters.erase w }
  | .impossible => { s with impossibleWaiters := s.impossibleWaiters.erase w }

/-- The wake cascade loop shared by Release (semaphore.go lines 101 to 126)
and the final loop of Resize (lines 181 to 199): grant front waiters while
size - cur is at least the front weight.  Returns the final cur, the
remaining queue, and the granted waiters in grant order. -/
def wakeCascade (size : Int) : Int → List Waiter → Int × List Waiter × List Waiter
  | cur, [] => (cur, [], [])
  | cur, w :: ws =>
    if size - cur < w.n then
      (cur, w :: ws, [])
    else
      let r := wakeCascade size (cur + w.n) ws
      (r.1, r.2.1, w :: r.2.2)

/-- Result of an operation that can panic: whether it panicked, the fields as
left behind, and the waiters whose ready channel was closed. -/
structure OpResult where
  panicked : Bool
  state : Weighted
  granted : List Waiter
deriving DecidableEq, Repr

/-- Release (semaphore.go lines 94 to 128): decrement cur, panic when it went
negative, otherwise run the wake cascade. -/
def release (s : Weighted) (n : Int) : OpResult :=
  let cur1 := s.cur - n
  if cur1 < 0 then
    { panicked := true, state := { s with cur := cur1 }, granted := [] }
  else
    let r := wakeCascade s.size cur1 s.waiters
    { panicked := false
      state := { s with cur := r.1, waiters := r.2.1 }
      granted := r.2.2 }

/-- First Resize loop (semaphore.go lines 140 to 158): walk the impossible
list front to back; a waiter whose weight now fits is pushed at the back of
the waiters list in walk order.  Returns (moved in order, kept in order). -/
def moveNowPossible (size : Int) : List Waiter → List Waiter × List Waiter
  | [] => ([], [])
  | w :: ws =>
    let r := moveNowPossible size ws
    if size < w.n then (r.1, w :: r.2) else (w :: r.1, r.2)

/-- Second Resize loop (semaphore.go lines 161 to 178): walk the waiters list
front to back; a waiter whose weight no longer fits is pushed at the back of
the impossible list in walk order.  Returns (kept in order, moved in order). -/
def moveNowImpossible (size : Int) : List Waiter → List Waiter × List Waiter
  | [] => ([], [])
  | w :: ws =>
    let r := moveNowImpossible size ws
    if size ≥ w.n then (w :: r.1, r.2) else (r.1, w :: r.2)

/-- Resize (semaphore.go lines 131 to 201): set size, panic when negative,
reclassify both lists, then run the wake cascade. -/
def resize (s : Weighted) (n : Int) : OpResult :=
  let s1 : Weighted := { s with size := n }
  if n < 0 then
    { panicked := true, state := s1, granted := [] }
  else
    let m1 := moveNowPossible n s.impossibleWaiters
    let waiters1 := s.waiters ++ m1.1
    let imp1 := m1.2
    let m2 := moveNowImpossible n waiters1
    let waiters2 := m2.1
    let imp2 := imp1 ++ m2.2
    let r := wakeCascade n s.cur waiters2
    { panicked := false
      state := { size := n, cur := r.1, waiters := r.2.1, impossibleWaiters := imp2 }
      granted := r.2.2 }

/-- Sum of the weights of a list of waiters. -/
def sumW (l : List Waiter) : Int := (l.map Waiter.n).sum

/-- The granted prefix of a cascade is greedy: every successive grant fits
within the free capacity available at its turn. -/
def grantedGreedy (size : Int) : Int → List Waiter → Prop
  | _, [] => True
  | cur, w :: ws => size - cur ≥ w.n ∧ grantedGreedy size (cur + w.n) ws

/-- States reachable by any sequence of the operations, with arbitrary
arguments; a panicking Release or Resize halts and yields no further state. -/
inductive Reach : Weighted → Prop where
  | new (c : Int) : Reach (newWeighted c)
  | tryStep (s : Weighted) (n : Int) : Reach s → Reach (tryAcquire s n).2
  | acqStep (s : Weighted) (w : Waiter) : Reach s → Reach (acquireStart s w).2
  | cancelStep (s : Weighted) (w : Waiter) (k : QueueKind) :
      Reach s → Reach (cancelWaiter s w k)
  | relStep (s : Weighted) (n : Int) :
      Reach s → (release s n).panicked = false → Reach (release s n).state
  | resStep (s : Weighted) (n : Int) :
      Reach s → (resize s n).panicked = false → Reach (resize s n).state

/-- States reachable when the initial capacity is nonnegative, every acquire
and release weight is nonnegative, and Resize is never asked to shrink below
the amount currently in use. -/
inductive GoodReach : Weighted → Prop where
  | new (c : Int) : 0 ≤ c → GoodReach (newWeighted c)
  | tryStep (s : Weighted) (n : Int) :
      GoodReach s → 0 ≤ n → GoodReach (tryAcquire s n).2
  | acqStep (s : Weighted) (w : Waiter) :
      GoodReach s → 0 ≤ w.n → GoodReach (acquireStart s w).2
  | cancelStep (s : Weighted) (w : Waiter) (k : QueueKind) :
      GoodReach s → GoodReach (cancelWaiter s w k)
  | relStep (s : Weighted) (n : Int) :
      GoodReach s → 0 ≤ n → (release s n).panicked = false →
      GoodReach (release s n).state
  | resStep (s : Weighted) (n : Int) :
      GoodReach s → s.cur ≤ n → GoodReach (resize s n).state

/-- Modelled from the spec: the external interface section requires New to
fail fatally (here: none) when capacity is negative.  This definition follows
the spec's words and exists only to contrast with the code's newWeighted,
which performs no such check. -/
def newCheckedSpec (n : Int) : Option Weighted :=
  if n < 0 then none else some (newWeighted n)

/-- The ordered wait queue as it stands after Resize's two reclassification
loops, just before its wake cascade. -/
def resizeQueue (s : Weighted) (n : Int) : List Waiter :=
  (moveNowImpossible n (s.waiters ++ (moveNowPossible n s.impossibleWaiters).1)).1

/-- Classification invariant: every waiter on the ordered list fits the
current capacity, every waiter on the impossible list exceeds it. -/
def classified (s : Weighted) : Prop :=
  (∀ w ∈ s.waiters, w.n ≤ s.size) ∧ ∀ w ∈ s.impossibleWaiters, s.size < w.n

/-- Accounting invariant: cur within 0 and size, all queued weights
nonnegative. -/
def validState (s : Weighted) : Prop :=
  0 ≤ s.cur ∧ s.cur ≤ s.size ∧ (∀ w ∈ s.waiters, 0 ≤ w.n) ∧
    ∀ w ∈ s.impossibleWaiters, 0 ≤ w.n

theorem sumW_nil : sumW [] = 0 := rfl

theorem sumW_cons (w : Waiter) (l : List Waiter) : sumW (w :: l) = w.n + sumW l := by
  simp [sumW]

theorem sumW_nonneg (l : List Waiter) (h : ∀ w ∈ l, 0 ≤ w.n) : 0 ≤ sumW l := by
  induction l with
  | nil => simp [sumW]
  | cons w ws ih =>
    rw [sumW_cons]
    have h1 := h w (List.mem_cons_self w ws)
    have h2 := ih fun v hv => h v (List.mem_cons_of_mem w hv)
    omega

theorem wakeCascade_decomp (size : Int) (cur : Int) (q : List Waiter) :
    q = (wakeCascade size cur q).2.2 ++ (wakeCascade size cur q).2.1 := by
  induction q generalizing cur with
  | nil => simp [wakeCascade]
  | cons w ws ih =>
    simp only [wakeCascade]
    split
    · simp
    · simp only [List.cons_append]
      exact congrArg (w :: ·) (ih (cur + w.n))

theorem wakeCascade_cur_eq (size : Int) (cur : Int) (q : List Waiter) :
    (wakeCascade size cur q).1 = cur + sumW (wakeCascade size cur q).2.2 := by
  induction q generalizing cur with
  | nil => simp [wakeCascade, sumW]
  | cons w ws ih =>
    simp only [wakeCascade]
    split
    · simp [sumW]
    · rw [ih (cur + w.n), sumW_cons]
      omega

theorem wakeCascade_greedy (size : Int) (cur : Int) (q : List Waiter) :
    grantedGreedy size cur (wakeCascade size cur q).2.2 := by
  induction q generalizing cur with
  | nil => simp [wakeCascade, grantedGreedy]
  | cons w ws ih =>
    simp only [wakeCascade]
    split
    · simp [grantedGreedy]
    · rename_i hfit
      exact ⟨by omega, ih (cur + w.n)⟩

theorem wakeCascade_stop (size : Int) (cur : Int) (q : List Waiter) (w : Waiter)
    (ws : List Waiter) (h : (wakeCascade size cur q).2.1 = w :: ws) :
    size - (wakeCascade size cur q).1 < w.n := by
  induction q generalizing cur with
  | nil => simp [wakeCascade] at h
  | cons v vs ih =>
    simp only [wakeCascade] at h ⊢
    split at h
    · rename_i hfit
      simp only [if_pos hfit]
      obtain ⟨h1, _⟩ := List.cons_eq_cons.mp h
      rw [← h1]
      omega
    · rename_i hfit
      simp only [if_neg hfit]
      exact ih (cur + v.n) h

theorem wakeCascade_cur_le (size : Int) (cur : Int) (q : List Waiter)
    (h : cur ≤ size) : (wakeCascade size cur q).1 ≤ size := by
  induction q generalizing cur with
  | nil => simpa [wakeCascade] using h
  | cons w ws ih =>
    simp only [wakeCascade]
    split
    · simpa using h
    · rename_i hfit
      exact ih (cur + w.n) (by omega)

theorem wakeCascade_cur_nonneg (size : Int) (cur : Int) (q : List Waiter)
    (h0 : 0 ≤ cur) (hq : ∀ w ∈ q, 0 ≤ w.n) : 0 ≤ (wakeCascade size cur q).1 := by
  induction q generalizing cur with
  | nil => simpa [wakeCascade] using h0
  | cons w ws ih =>
    simp only [wakeCascade]
    split
    · simpa using h0
    · have hw := hq w (List.mem_cons_self w ws)
      exact ih (cur + w.n) (by omega) fun v hv => hq v (List.mem_cons_of_mem w hv)

theorem wakeCascade_rest_mem (size : Int) (cur : Int) (q : List Waiter) (w : Waiter)
    (h : w ∈ (wakeCascade size cur q).2.1) : w ∈ q := by
  have h2 : w ∈ (wakeCascade size cur q).2.2 ++ (wakeCascade size cur q).2.1 :=
    List.mem_append_right _ h
  rwa [← wakeCascade_decomp] at h2

theorem wakeCascade_granted_mem (size : Int) (cur : Int) (q : List Waiter) (w : Waiter)
    (h : w ∈ (wakeCascade size cur q).2.2) : w ∈ q := by
  have h2 : w ∈ (wakeCascade size cur q).2.2 ++ (wakeCascade size cur q).2.1 :=
    List.mem_append_left _ h
  rwa [← wakeCascade_decomp] at h2

theorem wakeCascade_nodup (size : Int) (cur : Int) (q : List Waiter) (h : q.Nodup) :
    (wakeCascade size cur q).2.2.Nodup ∧
      ∀ w ∈ (wakeCascade size cur q).2.2, w ∉ (wakeCascade size cur q).2.1 := by
  rw [wakeCascade_decomp size cur q] at h
  rw [List.nodup_append] at h
  exact ⟨h.1, fun w hw => h.2.2 hw⟩

theorem moveNowPossible_eq (size : Int) (l : List Waiter) :
    moveNowPossible size l =
      (l.filter (fun w => decide (w.n ≤ size)),
        l.filter (fun w => decide (size < w.n))) := by
  induction l with
  | nil => rfl
  | cons w ws ih =>
    simp only [moveNowPossible, ih, List.filter_cons]
    by_cases h : size < w.n
    · simp [h, Int.not_le.mpr h]
    · simp [h, Int.not_lt.mp h]

theorem moveNowImpossible_eq (size : Int) (l : List Waiter) :
    moveNowImpossible size l =
      (l.filter (fun w => decide (w.n ≤ size)),
        l.filter (fun w => decide (size < w.n))) := by
  induction l with
  | nil => rfl
  | cons w ws ih =>
    simp only [moveNowImpossible, ih, List.filter_cons]
    by_cases h : w.n ≤ size
    · simp [h, Int.not_lt.mpr h]
    · simp [h, Int.not_le.mp h, Int.not_le.mpr (Int.not_le.mp h)]

theorem release_panicked_iff (s : Weighted) (n : Int) :
    (release s n).panicked = true ↔ s.cur - n < 0 := by
  by_cases h : s.cur - n < 0 <;> simp [release, h]

theorem resize_panicked_iff (s : Weighted) (n : Int) :
    (resize s n).panicked = true ↔ n < 0 := by
  by_cases h : n < 0 <;> simp [resize, h]

theorem release_eq (s : Weighted) (n : Int) (h : ¬ s.cur - n < 0) :
    release s n =
      { panicked := false
        state := { s with cur := (wakeCascade s.size (s.cur - n) s.waiters).1
                          waiters := (wakeCascade s.size (s.cur - n) s.waiters).2.1 }
        granted := (wakeCascade s.size (s.cur - n) s.waiters).2.2 } := by
  simp [release, h]

theorem resizeQueue_eq (s : Weighted) (n : Int) :
    resizeQueue s n =
      s.waiters.filter (fun w => decide (w.n ≤ n)) ++
        s.impossibleWaiters.filter (fun w => decide (w.n ≤ n)) := by
  unfold resizeQueue
  rw [moveNowPossible_eq, moveNowImpossible_eq]
  simp only [List.filter_append, List.filter_filter]
  congr 1
  simp

theorem resize_imp_eq (s : Weighted) (n : Int) :
    (moveNowPossible n s.impossibleWaiters).2 ++
        (moveNowImpossible n
          (s.waiters ++ (moveNowPossible n s.impossibleWaiters).1)).2 =
      s.impossibleWaiters.filter (fun w => decide (n < w.n)) ++
        s.waiters.filter (fun w => decide (n < w.n)) := by
  rw [moveNowPossible_eq, moveNowImpossible_eq]
  simp only [List.filter_append]
  have h2 : List.filter (fun w => decide (n < w.n))
      (List.filter (fun w => decide (w.n ≤ n)) s.impossibleWaiters) = [] := by
    rw [List.filter_filter]
    apply List.filter_eq_nil_iff.mpr
    intro w _
    simp only [Bool.and_eq_true, decide_eq_true_eq, not_and]
    omega
  rw [h2, List.append_nil]

theorem resize_eq (s : Weighted) (n : Int) (h : ¬ n < 0) :
    resize s n =
      { panicked := false
        state := { size := n
                   cur := (wakeCascade n s.cur (resizeQueue s n)).1
                   waiters := (wakeCascade n s.cur (resizeQueue s n)).2.1
                   impossibleWaiters :=
                     s.impossibleWaiters.filter (fun w => decide (n < w.n)) ++
                       s.waiters.filter (fun w => decide (n < w.n)) }
        granted := (wakeCascade n s.cur (resizeQueue s n)).2.2 } := by
  rw [← resize_imp_eq s n]
  unfold resize resizeQueue
  rw [if_neg h]

theorem reach_classified (s : Weighted) (h : Reach s) : classified s := by
  induction h with
  | new c =>
    exact ⟨by simp [newWeighted], by simp [newWeighted]⟩
  | tryStep s n hr ih =>
    unfold classified at ih ⊢
    unfold tryAcquire
    by_cases hc : s.size - s.cur ≥ n ∧ s.waiters = []
    · rw [if_pos hc]
      exact ih
    · rw [if_neg hc]
      exact ih
  | acqStep s w hr ih =>
    unfold classified at ih ⊢
    unfold acquireStart
    by_cases hc : s.size - s.cur ≥ w.n ∧ s.waiters = []
    · rw [if_pos hc]
      exact ih
    · rw [if_neg hc]
      by_cases hw : w.n > s.size
      · rw [if_pos hw]
        dsimp only
        refine ⟨ih.1, ?_⟩
        intro v hv
        rcases List.mem_append.mp hv with hv | hv
        · exact ih.2 v hv
        · rw [List.mem_singleton.mp hv]
          omega
      · rw [if_neg hw]
        dsimp only
        refine ⟨?_, ih.2⟩
        intro v hv
        rcases List.mem_append.mp hv with hv | hv
        · exact ih.1 v hv
        · rw [List.mem_singleton.mp hv]
          omega
  | cancelStep s w k hr ih =>
    unfold classified at ih ⊢
    cases k
    · exact ⟨fun v hv => ih.1 v (List.mem_of_mem_erase hv), ih.2⟩
    · exact ⟨ih.1, fun v hv => ih.2 v (List.mem_of_mem_erase hv)⟩
  | relStep s n hr hp ih =>
    have hn : ¬ s.cur - n < 0 := fun hc => by
      simp [(release_panicked_iff s n).mpr hc] at hp
    rw [release_eq s n hn]
    unfold classified at ih ⊢
    exact ⟨fun v hv => ih.1 v (wakeCascade_rest_mem _ _ _ v hv), ih.2⟩
  | resStep s n hr hp ih =>
    have hn : ¬ n < 0 := fun hc => by
      simp [(resize_panicked_iff s n).mpr hc] at hp
    rw [resize_eq s n hn]
    unfold classified
    constructor
    · intro v hv
      have hv2 := wakeCascade_rest_mem _ _ _ v hv
      rw [resizeQueue_eq] at hv2
      rcases List.mem_append.mp hv2 with hv2 | hv2 <;>
        simpa using (List.mem_filter.mp hv2).2
    · intro v hv
      rcases List.mem_append.mp hv with hv2 | hv2 <;>
        simpa using (List.mem_filter.mp hv2).2

theorem goodReach_valid (s : Weighted) (h : GoodReach s) : validState s := by
  induction h with
  | new c hc =>
    exact ⟨le_refl 0, hc, by simp [newWeighted], by simp [newWeighted]⟩
  | tryStep s n hr hn ih =>
    obtain ⟨h0, h1, h2, h3⟩ := ih
    unfold validState
    unfold tryAcquire
    by_cases hc : s.size - s.cur ≥ n ∧ s.waiters = []
    · rw [if_pos hc]
      dsimp only
      obtain ⟨hc1, hc2⟩ := hc
      exact ⟨by omega, by omega, h2, h3⟩
    · rw [if_neg hc]
      exact ⟨h0, h1, h2, h3⟩
  | acqStep s w hr hn ih =>
    obtain ⟨h0, h1, h2, h3⟩ := ih
    unfold validState
    unfold acquireStart
    by_cases hc : s.size - s.cur ≥ w.n ∧ s.waiters = []
    · rw [if_pos hc]
      dsimp only
      obtain ⟨hc1, hc2⟩ := hc
      exact ⟨by omega, by omega, h2, h3⟩
    · rw [if_neg hc]
      by_cases hw : w.n > s.size
      · rw [if_pos hw]
        refine ⟨h0, h1, h2, ?_⟩
        intro v hv
        rcases List.mem_append.mp hv with hv | hv
        · exact h3 v hv
        · rw [List.mem_singleton.mp hv]
          exact hn
      · rw [if_neg hw]
        refine ⟨h0, h1, ?_, h3⟩
        intro v hv
        rcases List.mem_append.mp hv with hv | hv
        · exact h2 v hv
        · rw [List.mem_singleton.mp hv]
          exact hn
  | cancelStep s w k hr ih =>
    obtain ⟨h0, h1, h2, h3⟩ := ih
    unfold validState
    cases k
    · exact ⟨h0, h1, fun v hv => h2 v (List.mem_of_mem_erase hv), h3⟩
    · exact ⟨h0, h1, h2, fun v hv => h3 v (List.mem_of_mem_erase hv)⟩
  | relStep s n hr hn hp ih =>
    obtain ⟨h0, h1, h2, h3⟩ := ih
    have hzn : ¬ s.cur - n < 0 := fun hc => by
      simp [(release_panicked_iff s n).mpr hc] at hp
    rw [release_eq s n hzn]
    refine ⟨?_, ?_, ?_, h3⟩
    · exact wakeCascade_cur_nonneg _ _ _ (by omega) h2
    · exact wakeCascade_cur_le _ _ _ (by omega)
    · intro v hv
      exact h2 v (wakeCascade_rest_mem _ _ _ v hv)
  | resStep s n hr hcn ih =>
    obtain ⟨h0, h1, h2, h3⟩ := ih
    have hn : ¬ n < 0 := by omega
    rw [resize_eq s n hn]
    have hq : ∀ v ∈ resizeQueue s n, 0 ≤ v.n := by
      intro v hv
      rw [resizeQueue_eq] at hv
      rcases List.mem_append.mp hv with hv | hv
      · exact h2 v (List.mem_filter.mp hv).1
      · exact h3 v (List.mem_filter.mp hv).1
    refine ⟨?_, ?_, ?_, ?_⟩
    · exact wakeCascade_cur_nonneg _ _ _ h0 hq
    · exact wakeCascade_cur_le _ _ _ hcn
    · intro v hv
      exact hq v (wakeCascade_rest_mem _ _ _ v hv)
    · intro v hv
      rcases List.mem_append.mp hv with hv | hv
      · exact h3 v (List.mem_filter.mp hv).1
      · exact h2 v (List.mem_filter.mp hv).1

/-- C1 counterexample: the state with capacity 1 and used 2 is reachable:
create the semaphore with capacity 2, TryAcquire(2), then Resize(1), which
does not panic; in that state used exceeds capacity, so the claimed invariant
fails on reachable states. -/
theorem reach_shrink_breaks_bound :
    Reach { size := 1, cur := 2, waiters := [], impossibleWaiters := [] } ∧
      ¬ ({ size := 1, cur := 2, waiters := [],
            impossibleWaiters := [] } : Weighted).cur ≤
          ({ size := 1, cur := 2, waiters := [],
              impossibleWaiters := [] } : Weighted).size := by
  constructor
  · have h1 : Reach (tryAcquire (newWeighted 2) 2).2 :=
      Reach.tryStep (newWeighted 2) 2 (Reach.new 2)
    have h2 : Reach (resize (tryAcquire (newWeighted 2) 2).2 1).state :=
      Reach.resStep _ 1 h1 (by decide)
    have h3 : (resize (tryAcquire (newWeighted 2) 2).2 1).state =
        { size := 1, cur := 2, waiters := [], impossibleWaiters := [] } := by decide
    rwa [h3] at h2
  · decide

/-- C1 (amended): in every state reachable with a nonnegative initial
capacity, nonnegative acquire and release weights, and Resize never taken
below the amount currently in use, 0 ≤ used ≤ capacity holds at every
externally observable instant. -/
theorem goodReach_cur_bounds (s : Weighted) (h : GoodReach s) :
    0 ≤ s.cur ∧ s.cur ≤ s.size :=
  ⟨(goodReach_valid s h).1, (goodReach_valid s h).2.1⟩

theorem goodReach_cur_bounds_witness :
    0 ≤ (tryAcquire (newWeighted 3) 2).2.cur ∧
      (tryAcquire (newWeighted 3) 2).2.cur ≤ (tryAcquire (newWeighted 3) 2).2.size :=
  goodReach_cur_bounds _
    (GoodReach.tryStep (newWeighted 3) 2 (GoodReach.new 3 (by decide)) (by decide))

/-- C2: after a non-panicking Release the wake cascade grants a greedy prefix
of the ordered queue strictly from the front: the queue splits as granted
followed by remaining, used rises by exactly the granted weights, every
granted waiter fit the free capacity at its turn, the scan stops at the first
front waiter that does not fit (so every waiter behind it stays queued, even
a smaller satisfiable one), each waiter is granted at most once, and Resize's
final step runs the identical cascade on its reclassified queue. -/
theorem release_wake_cascade_frontal (s : Weighted) (n : Int)
    (h : ¬ s.cur - n < 0) :
    (release s n).panicked = false ∧
    s.waiters = (release s n).granted ++ (release s n).state.waiters ∧
    (release s n).state.cur = (s.cur - n) + sumW (release s n).granted ∧
    grantedGreedy s.size (s.cur - n) (release s n).granted ∧
    (∀ w ws, (release s n).state.waiters = w :: ws →
      s.size - (release s n).state.cur < w.n) ∧
    (s.waiters.Nodup →
      (release s n).granted.Nodup ∧
        ∀ w ∈ (release s n).granted, w ∉ (release s n).state.waiters) ∧
    (∀ m : Int, ¬ m < 0 →
      (resize s m).state.cur = (wakeCascade m s.cur (resizeQueue s m)).1 ∧
      (resize s m).state.waiters = (wakeCascade m s.cur (resizeQueue s m)).2.1 ∧
      (resize s m).granted = (wakeCascade m s.cur (resizeQueue s m)).2.2) := by
  rw [release_eq s n h]
  dsimp only
  refine ⟨rfl, wakeCascade_decomp _ _ _, wakeCascade_cur_eq _ _ _,
    wakeCascade_greedy _ _ _, ?_, ?_, ?_⟩
  · intro w ws hw
    exact wakeCascade_stop _ _ _ w ws hw
  · intro hnd
    exact wakeCascade_nodup _ _ _ hnd
  · intro m hm
    rw [resize_eq s m hm]
    exact ⟨rfl, rfl, rfl⟩

theorem release_wake_cascade_frontal_witness :
    ¬ (({ size := 2, cur := 2,
          waiters := [{ n := 2, id := 0 }, { n := 1, id := 1 }],
          impossibleWaiters := [] } : Weighted).cur - 1 < 0) ∧
      (release { size := 2, cur := 2,
                 waiters := [{ n := 2, id := 0 }, { n := 1, id := 1 }],
                 impossibleWaiters := [] } 1).panicked = false :=
  ⟨by decide, (release_wake_cascade_frontal _ 1 (by decide)).1⟩

/-- C3: TryAcquire and Acquire's fast path succeed under exactly the same
admission predicate, namely an empty ordered queue and capacity minus used at
least the weight; on success both add the weight to used, and a failing
TryAcquire returns false with the state unchanged, never enqueueing. -/
theorem tryAcquire_acquire_same_predicate (s : Weighted) (n : Int) (i : Nat) :
    ((tryAcquire s n).1 = true ↔ s.size - s.cur ≥ n ∧ s.waiters = []) ∧
    ((acquireStart s { n := n, id := i }).1 = true ↔
      s.size - s.cur ≥ n ∧ s.waiters = []) ∧
    ((tryAcquire s n).1 = true →
      (tryAcquire s n).2 = { s with cur := s.cur + n }) ∧
    ((acquireStart s { n := n, id := i }).1 = true →
      (acquireStart s { n := n, id := i }).2 = { s with cur := s.cur + n }) ∧
    ((tryAcquire s n).1 = false → (tryAcquire s n).2 = s) := by
  by_cases hc : s.size - s.cur ≥ n ∧ s.waiters = []
  · simp [tryAcquire, acquireStart, hc]
  · refine ⟨by simp [tryAcquire, hc], ?_, by simp [tryAcquire, hc], ?_,
      by simp [tryAcquire, hc]⟩ <;>
    · by_cases hw : n > s.size <;> simp [acquireStart, hc, hw]

theorem tryAcquire_acquire_same_predicate_witness :
    (tryAcquire (newWeighted 2) 2).1 = true ↔
      (newWeighted 2).size - (newWeighted 2).cur ≥ 2 ∧ (newWeighted 2).waiters = [] :=
  (tryAcquire_acquire_same_predicate (newWeighted 2) 2 0).1

/-- C4: on the slow path a new waiter goes to the impossible list exactly
when its weight exceeds capacity and otherwise to the tail of the ordered
queue; a non-panicking Resize(m) leaves the impossible list holding exactly
the previously queued or set-aside records with weight above m (former
impossible ones first, in order), feeds the cascade exactly the records with
weight at most m (former queue order first, then moved ones in order), so
afterwards every record with weight at most m is granted or still in the
ordered queue and membership in the impossible list is equivalent to the
weight exceeding m; moreover in every reachable state each ordered-queue
record fits capacity and each impossible record exceeds it. -/
theorem classification_reclassification (s : Weighted) (w : Waiter)
    (h : ¬ (s.size - s.cur ≥ w.n ∧ s.waiters = [])) :
    (w.n > s.size →
      acquireStart s w =
        (false, { s with impossibleWaiters := s.impossibleWaiters ++ [w] })) ∧
    (¬ w.n > s.size →
      acquireStart s w = (false, { s with waiters := s.waiters ++ [w] })) ∧
    (∀ m : Int, ¬ m < 0 →
      (resize s m).state.impossibleWaiters =
          s.impossibleWaiters.filter (fun v => decide (m < v.n)) ++
            s.waiters.filter (fun v => decide (m < v.n)) ∧
      (resize s m).granted ++ (resize s m).state.waiters =
          s.waiters.filter (fun v => decide (v.n ≤ m)) ++
            s.impossibleWaiters.filter (fun v => decide (v.n ≤ m)) ∧
      (∀ v, v ∈ (resize s m).state.impossibleWaiters ↔
        (v ∈ s.waiters ∨ v ∈ s.impossibleWaiters) ∧ m < v.n) ∧
      (∀ v, (v ∈ s.waiters ∨ v ∈ s.impossibleWaiters) → v.n ≤ m →
        v ∈ (resize s m).granted ∨ v ∈ (resize s m).state.waiters)) ∧
    (∀ t : Weighted, Reach t →
      (∀ v ∈ t.waiters, v.n ≤ t.size) ∧ ∀ v ∈ t.impossibleWaiters, t.size < v.n) := by
  refine ⟨?_, ?_, ?_, ?_⟩
  · intro hw
    unfold acquireStart
    rw [if_neg h, if_pos hw]
  · intro hw
    unfold acquireStart
    rw [if_neg h, if_neg hw]
  · intro m hm
    rw [resize_eq s m hm]
    dsimp only
    refine ⟨rfl, ?_, ?_, ?_⟩
    · rw [← wakeCascade_decomp, resizeQueue_eq]
    · intro v
      constructor
      · intro hv
        rcases List.mem_append.mp hv with hv | hv
        · exact ⟨Or.inr (List.mem_filter.mp hv).1,
            by simpa using (List.mem_filter.mp hv).2⟩
        · exact ⟨Or.inl (List.mem_filter.mp hv).1,
            by simpa using (List.mem_filter.mp hv).2⟩
      · rintro ⟨hv, hlt⟩
        rcases hv with hv | hv
        · exact List.mem_append_right _ (List.mem_filter.mpr ⟨hv, by simpa using hlt⟩)
        · exact List.mem_append_left _ (List.mem_filter.mpr ⟨hv, by simpa using hlt⟩)
    · intro v hv hle
      have hq : v ∈ resizeQueue s m := by
        rw [resizeQueue_eq]
        rcases hv with hv | hv
        · exact List.mem_append_left _ (List.mem_filter.mpr ⟨hv, by simpa using hle⟩)
        · exact List.mem_append_right _ (List.mem_filter.mpr ⟨hv, by simpa using hle⟩)
      rw [wakeCascade_decomp m s.cur (resizeQueue s m)] at hq
      exact List.mem_append.mp hq
  · intro t ht
    have hc := reach_classified t ht
    unfold classified at hc
    exact hc

theorem classification_reclassification_witness :
    acquireStart { size := 1, cur := 1, waiters := [], impossibleWaiters := [] }
        { n := 5, id := 0 } =
      (false, { size := 1, cur := 1, waiters := [],
                impossibleWaiters := [{ n := 5, id := 0 }] }) := by
  have h := classification_reclassification
    { size := 1, cur := 1, waiters := [], impossibleWaiters := [] }
    { n := 5, id := 0 } (by decide)
  have h2 := h.1 (by decide)
  simpa using h2

/-- C5: Release first subtracts the weight from used; when the result is
negative it panics, with the decremented value left behind and nothing
granted; otherwise it does not panic and continues into the wake cascade,
which only adds granted weights on top of used minus weight (so with an empty
queue, used drops by exactly the weight). -/
theorem release_underflow_halts (s : Weighted) (n : Int) :
    (s.cur - n < 0 →
      release s n =
        { panicked := true, state := { s with cur := s.cur - n }, granted := [] }) ∧
    (¬ s.cur - n < 0 →
      (release s n).panicked = false ∧
      (release s n).state.cur = (s.cur - n) + sumW (release s n).granted ∧
      (s.waiters = [] → (release s n).state.cur = s.cur - n)) := by
  constructor
  · intro hc
    simp [release, hc]
  · intro hc
    rw [release_eq s n hc]
    dsimp only
    refine ⟨rfl, wakeCascade_cur_eq _ _ _, ?_⟩
    intro hw
    rw [hw]
    simp [wakeCascade]

theorem release_underflow_halts_witness :
    ((newWeighted 1).cur - 2 < 0) ∧
      release (newWeighted 1) 2 =
        { panicked := true
          state := { newWeighted 1 with cur := (newWeighted 1).cur - 2 }
          granted := [] } :=
  ⟨by decide, (release_underflow_halts (newWeighted 1) 2).1 (by decide)⟩

/-- C6 counterexample: NewWeighted performs no capacity validation: at the
negative capacity -1 it returns an ordinary semaphore whose size is -1,
whereas the spec's checked constructor rejects -1, so New does not fail
fatally on negative capacity. -/
theorem newWeighted_negative_accepted :
    newWeighted (-1) =
        { size := -1, cur := 0, waiters := [], impossibleWaiters := [] } ∧
      newCheckedSpec (-1) = none := by
  exact ⟨by decide, by decide⟩

/-- C6 (amended): New accepts every capacity, including negative ones,
returning a semaphore whose size is the given value; the only negative
capacity guard in the code is the panic in Resize. -/
theorem newWeighted_unvalidated (n : Int) (h : n < 0) :
    (newWeighted n).size = n ∧ (newWeighted n).size < 0 ∧
      (resize (newWeighted n) n).panicked = true :=
  ⟨rfl, h, (resize_panicked_iff _ n).mpr h⟩

theorem newWeighted_unvalidated_witness :
    ((-2 : Int) < 0) ∧
      ((newWeighted (-2)).size = -2 ∧ (newWeighted (-2)).size < 0 ∧
        (resize (newWeighted (-2)) (-2)).panicked = true) :=
  ⟨by decide, newWeighted_unvalidated (-2) (by decide)⟩

/-- C7 (code bug): the grant/cancel race is not resolved exactly once across
a Resize reclassification.  Trace: New(1); TryAcquire(1); an Acquire of
weight 5 parks on the impossible list; Resize(5) moves the record to the
ordered list but cannot grant it yet (4 free < 5); the context is then
canceled, and the cancellation's Remove targets the element of the list
captured at enqueue time, so it removes nothing and Acquire reports
cancellation while the record stays queued; a later Release(1) grants the
record and fires its ready signal, after the caller was told canceled. -/
theorem canceled_waiter_later_granted :
    (resize (acquireStart (tryAcquire (newWeighted 1) 1).2 { n := 5, id := 0 }).2
        5).granted = [] ∧
    cancelWaiter
        (resize (acquireStart (tryAcquire (newWeighted 1) 1).2
          { n := 5, id := 0 }).2 5).state { n := 5, id := 0 } QueueKind.impossible =
      (resize (acquireStart (tryAcquire (newWeighted 1) 1).2
        { n := 5, id := 0 }).2 5).state ∧
    { n := 5, id := 0 } ∈
      (cancelWaiter
        (resize (acquireStart (tryAcquire (newWeighted 1) 1).2
          { n := 5, id := 0 }).2 5).state { n := 5, id := 0 }
        QueueKind.impossible).waiters ∧
    { n := 5, id := 0 } ∈
      (release
        (cancelWaiter
          (resize (acquireStart (tryAcquire (newWeighted 1) 1).2
            { n := 5, id := 0 }).2 5).state { n := 5, id := 0 }
          QueueKind.impossible) 1).granted := by
  decide

/-- C8 counterexample: with an unvalidated negative-weight waiter queued
behind a weight-2 waiter on a full capacity-2 semaphore, Resize(4) grants
both in its cascade and used drops from 2 to -1: Resize can decrease used. -/
theorem resize_decreases_cur :
    (acquireStart (acquireStart (tryAcquire (newWeighted 2) 2).2
        { n := 2, id := 0 }).2 { n := -5, id := 1 }).2.cur = 2 ∧
    (resize (acquireStart (acquireStart (tryAcquire (newWeighted 2) 2).2
        { n := 2, id := 0 }).2 { n := -5, id := 1 }).2 4).panicked = false ∧
    (resize (acquireStart (acquireStart (tryAcquire (newWeighted 2) 2).2
        { n := 2, id := 0 }).2 { n := -5, id := 1 }).2 4).state.cur = -1 := by
  decide

/-- C8 (amended): the only change a non-panicking Resize makes to used is
adding the weights granted by its wake cascade; reclassification and the
capacity change leave used alone, so when every queued weight is nonnegative
Resize never decreases used and already-granted allocations stay counted. -/
theorem resize_cur_only_cascade (s : Weighted) (n : Int) (h : ¬ n < 0) :
    (resize s n).state.cur = s.cur + sumW (resize s n).granted ∧
      ((∀ w ∈ s.waiters, 0 ≤ w.n) → (∀ w ∈ s.impossibleWaiters, 0 ≤ w.n) →
        s.cur ≤ (resize s n).state.cur) := by
  rw [resize_eq s n h]
  dsimp only
  refine ⟨wakeCascade_cur_eq _ _ _, ?_⟩
  intro h1 h2
  have hsum : 0 ≤ sumW (wakeCascade n s.cur (resizeQueue s n)).2.2 := by
    apply sumW_nonneg
    intro v hv
    have hq := wakeCascade_granted_mem _ _ _ v hv
    rw [resizeQueue_eq] at hq
    rcases List.mem_append.mp hq with hq | hq
    · exact h1 v (List.mem_filter.mp hq).1
    · exact h2 v (List.mem_filter.mp hq).1
  have := wakeCascade_cur_eq n s.cur (resizeQueue s n)
  omega

theorem resize_cur_only_cascade_witness :
    ¬ (3 : Int) < 0 ∧
      (resize (newWeighted 3) 3).state.cur =
        (newWeighted 3).cur + sumW (resize (newWeighted 3) 3).granted :=
  ⟨by decide, (resize_cur_only_cascade (newWeighted 3) 3 (by decide)).1⟩

/-- C9: the panics are not atomic with respect to the state: a panicking
Release has already decremented used below zero and a panicking Resize has
already stored the negative capacity, so an intercepted panic observes the
corrupted state rather than the pre-call one. -/
theorem panic_leaves_mutated_state (s : Weighted) (n m : Int)
    (hn : s.cur - n < 0) (hm : m < 0) :
    (release s n).panicked = true ∧
    (release s n).state = { s with cur := s.cur - n } ∧
    (release s n).state.cur < 0 ∧
    (resize s m).panicked = true ∧
    (resize s m).state = { s with size := m } ∧
    (resize s m).state.size < 0 := by
  refine ⟨?_, ?_, ?_, ?_, ?_, ?_⟩ <;> simp [release, resize, hn, hm]

theorem panic_leaves_mutated_state_witness :
    ((newWeighted 0).cur - 1 < 0) ∧ ((-1 : Int) < 0) ∧
      (release (newWeighted 0) 1).panicked = true ∧
      (resize (newWeighted 0) (-1)).state.size < 0 := by
  have h := panic_leaves_mutated_state (newWeighted 0) 1 (-1) (by decide) (by decide)
  exact ⟨by decide, by decide, h.1, h.2.2.2.2.2⟩

/-- C10: nonpositive weights pass the admission predicate unvalidated:
whenever the ordered queue is empty and used is at most capacity, TryAcquire
of a weight at most zero succeeds and adds that weight to used, and Acquire's
fast path does the same; in particular TryAcquire(0) succeeds on a
zero-capacity semaphore and TryAcquire(-1) there drives used to -1. -/
theorem nonpositive_weight_admitted (s : Weighted) (n : Int) (i : Nat)
    (hn : n ≤ 0) (hc : s.cur ≤ s.size) (hq : s.waiters = []) :
    tryAcquire s n = (true, { s with cur := s.cur + n }) ∧
    acquireStart s { n := n, id := i } = (true, { s with cur := s.cur + n }) ∧
    tryAcquire (newWeighted 0) 0 = (true, newWeighted 0) ∧
    (tryAcquire (newWeighted 0) (-1)).1 = true ∧
    (tryAcquire (newWeighted 0) (-1)).2.cur = -1 := by
  have hcond : s.size - s.cur ≥ n ∧ s.waiters = [] := ⟨by omega, hq⟩
  refine ⟨?_, ?_, by decide, by decide, by decide⟩
  · simp [tryAcquire, hcond]
  · simp [acquireStart, hcond]

theorem nonpositive_weight_admitted_witness :
    tryAcquire (newWeighted 0) 0 =
      (true, { newWeighted 0 with cur := (newWeighted 0).cur + 0 }) :=
  (nonpositive_weight_admitted (newWeighted 0) 0 0 (by decide) (by decide) rfl).1

end Semaphore
